import Mathlib

/-!
Formal model of the bitmap-rotation and battery-drawing code in
`src/boards/shields/nice_view_custom/widgets/util.c`.

The canvas is a packed 1-bit-per-pixel buffer: row `y`, column `x` lives in
byte `y * stride + x / 8`, bit `7 - x % 8` (MSB first).  Buffers are modelled
as functions from byte index to byte value (`Nat → Nat`); all bit reads and
writes use the exact shift/mask arithmetic of the C code, so no byte-range
assumption is needed.
-/

namespace NiceView

/-- Canvas side length N.  Modelled from the spec: `CANVAS_SIZE` is defined in
`util.h`, which is not among the sources; the spec fixes the canvas as an
N×N square with N = 68 ("a blank N=68 canvas"). -/
def CANVAS_SIZE : Nat := 68

/-- The bit value `(buf[byteIdx] >> bitIdx) & 0x1` extracted by the C code. -/
def getBitVal (buf : Nat → Nat) (byteIdx bitIdx : Nat) : Nat :=
  (buf byteIdx >>> bitIdx) &&& 1

/-- Source byte index of pixel (x,y): `y * stride + (x / 8)`
(`src_byte` in `rotate_canvas`). -/
def src_byte_idx (stride x y : Nat) : Nat :=
  y * stride + x / 8

/-- Destination byte index for source pixel (x,y): with `new_x = N - 1 - y`
and `new_y = x`, this is `new_y * stride + (new_x / 8)`
(`dst_byte` in `rotate_canvas`). -/
def dst_byte_idx (N stride x y : Nat) : Nat :=
  x * stride + (N - 1 - y) / 8

/-- Pixel (x,y) of a packed buffer, read exactly as the C code does:
`val = (buf[y*stride + x/8] >> (7 - x%8)) & 0x1`, and the pixel is
foreground when `val` is nonzero (`val` is 0 or 1, so nonzero means 1). -/
def getPixel (stride : Nat) (buf : Nat → Nat) (x y : Nat) : Bool :=
  decide (getBitVal buf (src_byte_idx stride x y) (7 - x % 8) = 1)

/-- `memset(buf, v, len)`: bytes below `len` become `v`, the rest keep their
old value. -/
def memset_region (buf : Nat → Nat) (len v : Nat) : Nat → Nat :=
  fun i => if i < len then v else buf i

/-- The static temporary: `memcpy(src_tmp, cbuf, stride * CANVAS_SIZE)`.
Bytes beyond the copied region are modelled as 0 (the static array's initial
content); the rotation loop never reads them (see `src_idx_lt`). -/
def src_tmp_of (N stride : Nat) (cbuf : Nat → Nat) : Nat → Nat :=
  fun i => if i < stride * N then cbuf i else 0

/-- One iteration of the double pixel loop of `rotate_canvas`: read source
pixel (x,y) from `src_tmp`; if it is set, OR the destination bit for
`new_x = N - 1 - y`, `new_y = x` into the buffer. -/
def rotStep (N stride : Nat) (src_tmp buf : Nat → Nat) (y x : Nat) : Nat → Nat :=
  if getBitVal src_tmp (src_byte_idx stride x y) (7 - x % 8) = 1 then
    fun i =>
      if i = dst_byte_idx N stride x y then buf i ||| (1 <<< (7 - (N - 1 - y) % 8))
      else buf i
  else buf

/-- The manual pixel-by-pixel rotation of `rotate_canvas` (lines 115-169):
copy `cbuf` to the temporary, memset the destination to 0x00/0xFF depending
on `CONFIG_NICE_VIEW_WIDGET_INVERTED`, immediately memset it again to 0, then
run the double loop that ORs each set source pixel into its rotated
destination position. -/
def rotate_canvas (inverted : Bool) (N stride : Nat) (cbuf : Nat → Nat) : Nat → Nat :=
  (List.range N).foldl
    (fun buf y => (List.range N).foldl
      (fun buf x => rotStep N stride (src_tmp_of N stride cbuf) buf y x) buf)
    (memset_region
      (memset_region cbuf (stride * N) (if inverted then 0x00 else 0xFF))
      (stride * N) 0)

/-- Condition under which loop iteration (y,x) sets bit `j` of byte `i` of
the destination. -/
def hitB (N stride : Nat) (src_tmp : Nat → Nat) (y x i j : Nat) : Bool :=
  decide (getBitVal src_tmp (src_byte_idx stride x y) (7 - x % 8) = 1 ∧
          i = dst_byte_idx N stride x y ∧ j = 7 - (N - 1 - y) % 8)

lemma getBitVal_eq_one_iff (buf : Nat → Nat) (i j : Nat) :
    getBitVal buf i j = 1 ↔ (buf i).testBit j := by
  simp [getBitVal, Nat.and_one_is_mod, Nat.shiftRight_eq_div_pow, Nat.testBit_to_div_mod]

lemma getPixel_eq_testBit (stride : Nat) (buf : Nat → Nat) (x y : Nat) :
    getPixel stride buf x y = (buf (src_byte_idx stride x y)).testBit (7 - x % 8) := by
  simp [getPixel, getBitVal_eq_one_iff]

lemma testBit_shiftLeft_one (k j : Nat) : (1 <<< k).testBit j = decide (j = k) := by
  rw [Nat.shiftLeft_eq, Nat.one_mul]
  by_cases h : k = j
  · subst h; simp [Nat.testBit_two_pow_self]
  · simp [Nat.testBit_two_pow_of_ne h, Ne.symm h, h]

lemma rotStep_apply (N stride : Nat) (src_tmp buf : Nat → Nat) (y x i : Nat) :
    rotStep N stride src_tmp buf y x i =
      if getBitVal src_tmp (src_byte_idx stride x y) (7 - x % 8) = 1 ∧
          i = dst_byte_idx N stride x y
      then buf i ||| (1 <<< (7 - (N - 1 - y) % 8))
      else buf i := by
  unfold rotStep
  by_cases hval : getBitVal src_tmp (src_byte_idx stride x y) (7 - x % 8) = 1 <;>
    by_cases hi : i = dst_byte_idx N stride x y <;>
      simp [hval, hi]

lemma rotStep_testBit (N stride : Nat) (src_tmp buf : Nat → Nat) (y x i j : Nat) :
    ((rotStep N stride src_tmp buf y x) i).testBit j
      = ((buf i).testBit j || hitB N stride src_tmp y x i j) := by
  rw [rotStep_apply]
  by_cases h : getBitVal src_tmp (src_byte_idx stride x y) (7 - x % 8) = 1 ∧
      i = dst_byte_idx N stride x y
  · rw [if_pos h, Nat.testBit_or, testBit_shiftLeft_one]
    have : hitB N stride src_tmp y x i j = decide (j = 7 - (N - 1 - y) % 8) := by
      simp [hitB, h.1, h.2]
    rw [this]
  · rw [if_neg h]
    have : hitB N stride src_tmp y x i j = false := by
      simp only [hitB, decide_eq_false_iff_not]
      intro hc
      exact h ⟨hc.1, hc.2.1⟩
    rw [this, Bool.or_false]

lemma foldl_rotStep_row (N stride : Nat) (src_tmp : Nat → Nat) (y : Nat) (L : List Nat)
    (buf : Nat → Nat) (i j : Nat) :
    ((L.foldl (fun b x => rotStep N stride src_tmp b y x) buf) i).testBit j
      = ((buf i).testBit j || L.any (fun x => hitB N stride src_tmp y x i j)) := by
  induction L generalizing buf with
  | nil => simp
  | cons x L ih =>
      simp only [List.foldl_cons, List.any_cons, ih, rotStep_testBit, Bool.or_assoc]

lemma foldl_rotStep_all (N stride : Nat) (src_tmp : Nat → Nat) (Ly : List Nat)
    (buf : Nat → Nat) (i j : Nat) :
    ((Ly.foldl
        (fun b y => (List.range N).foldl (fun b x => rotStep N stride src_tmp b y x) b)
        buf) i).testBit j
      = ((buf i).testBit j
         || Ly.any (fun y => (List.range N).any (fun x => hitB N stride src_tmp y x i j))) := by
  induction Ly generalizing buf with
  | nil => simp
  | cons y Ly ih =>
      simp only [List.foldl_cons, List.any_cons, ih, foldl_rotStep_row, Bool.or_assoc]

/-- Bit-level characterization of the rotated buffer: bit `j` of byte `i` is
set iff either `i` is beyond the cleared `stride * N` region and the bit was
set in `cbuf`, or some loop iteration (y,x) with y,x < N set it. -/
lemma rotate_canvas_testBit (inverted : Bool) (N stride : Nat) (cbuf : Nat → Nat) (i j : Nat) :
    ((rotate_canvas inverted N stride cbuf) i).testBit j
      = ((decide (stride * N ≤ i) && (cbuf i).testBit j)
         || (List.range N).any (fun y => (List.range N).any (fun x =>
               hitB N stride (src_tmp_of N stride cbuf) y x i j))) := by
  unfold rotate_canvas
  rw [foldl_rotStep_all]
  congr 1
  by_cases hi : i < stride * N
  · simp [memset_region, hi, Nat.not_le.mpr hi]
  · simp [memset_region, hi, Nat.not_lt.mp hi]

/-- Any byte index `y * stride + c / 8` with a valid row `y < N` and a column
`c < 8 * stride` lies inside the `stride * N`-byte buffer. -/
lemma byte_idx_lt (N stride y c : Nat) (hy : y < N) (hc : c < 8 * stride) :
    y * stride + c / 8 < stride * N := by
  have h1 : c / 8 < stride := by omega
  have h2 : y * stride + c / 8 < (y + 1) * stride := by
    have : (y + 1) * stride = y * stride + stride := by ring
    omega
  have h3 : (y + 1) * stride ≤ N * stride := Nat.mul_le_mul_right _ (by omega)
  have h4 : N * stride = stride * N := Nat.mul_comm _ _
  omega

/-- Decomposing a byte index into row and in-row offset is injective when the
offset is below the stride. -/
lemma stride_decomp_inj (stride r1 r2 u v : Nat) (hu : u < stride) (hv : v < stride)
    (h : r1 * stride + u = r2 * stride + v) : r1 = r2 ∧ u = v := by
  have hs : 0 < stride := Nat.lt_of_le_of_lt (Nat.zero_le u) hu
  have h' : u + stride * r1 = v + stride * r2 := by
    rw [Nat.add_comm u, Nat.add_comm v, Nat.mul_comm stride r1, Nat.mul_comm stride r2]
    exact h
  have hr : r1 = r2 := by
    have hdiv := congrArg (· / stride) h'
    simpa [Nat.add_mul_div_left, hs, Nat.div_eq_of_lt hu, Nat.div_eq_of_lt hv] using hdiv
  subst hr
  exact ⟨rfl, by omega⟩

lemma double_any_iff (N : Nat) (f : Nat → Nat → Bool) :
    ((List.range N).any (fun y => (List.range N).any (fun x => f y x)) = true)
      ↔ ∃ y, y < N ∧ ∃ x, x < N ∧ f y x = true := by
  simp [List.any_eq_true, List.mem_range]

/-- Pixel-level characterization of the rotation: for valid destination
coordinates (a,b), pixel (a,b) of the rotated buffer equals pixel
(b, N-1-a) of the source — the inverse of the `(x,y) → (N-1-y, x)`
clockwise mapping. -/
lemma rotate_canvas_getPixel (inverted : Bool) (N stride : Nat) (hs : N ≤ 8 * stride)
    (cbuf : Nat → Nat) (a b : Nat) (ha : a < N) (hb : b < N) :
    getPixel stride (rotate_canvas inverted N stride cbuf) a b
      = getPixel stride cbuf b (N - 1 - a) := by
  rw [getPixel_eq_testBit, getPixel_eq_testBit, rotate_canvas_testBit]
  have hi : src_byte_idx stride a b < stride * N := byte_idx_lt N stride b a hb (by omega)
  have hle : decide (stride * N ≤ src_byte_idx stride a b) = false := by
    simp only [decide_eq_false_iff_not]
    omega
  rw [hle, Bool.false_and, Bool.false_or]
  rw [Bool.eq_iff_iff, double_any_iff]
  constructor
  · rintro ⟨y, hy, x, hx, hhit⟩
    rw [hitB, decide_eq_true_iff] at hhit
    obtain ⟨hval, hbyte, hbit⟩ := hhit
    rw [src_byte_idx, dst_byte_idx] at hbyte
    have hxb : b = x ∧ a / 8 = (N - 1 - y) / 8 :=
      stride_decomp_inj stride b x (a / 8) ((N - 1 - y) / 8) (by omega) (by omega) hbyte
    have hcol : a = N - 1 - y := by omega
    have hyv : y = N - 1 - a := by omega
    rw [getBitVal_eq_one_iff] at hval
    have hsrc : src_tmp_of N stride cbuf (src_byte_idx stride x y)
        = cbuf (src_byte_idx stride x y) := by
      have : src_byte_idx stride x y < stride * N := by
        rw [src_byte_idx]
        exact byte_idx_lt N stride y x hy (by omega)
      simp [src_tmp_of, this]
    rw [hsrc] at hval
    rw [← hxb.1, hyv] at hval
    exact hval
  · intro hpix
    refine ⟨N - 1 - a, by omega, b, hb, ?_⟩
    rw [hitB, decide_eq_true_iff]
    refine ⟨?_, ?_, ?_⟩
    · rw [getBitVal_eq_one_iff]
      have hlt : src_byte_idx stride b (N - 1 - a) < stride * N := by
        rw [src_byte_idx]
        exact byte_idx_lt N stride (N - 1 - a) b (by omega) (by omega)
      simp only [src_tmp_of, if_pos hlt]
      exact hpix
    · rw [src_byte_idx, dst_byte_idx]
      have : N - 1 - (N - 1 - a) = a := by omega
      rw [this]
    · have : N - 1 - (N - 1 - a) = a := by omega
      rw [this]

/-- A buffer whose only foreground pixel is (x,y): byte `y * stride + x / 8`
holds the single bit `7 - x % 8`, every other byte is 0. -/
def single_pixel_cbuf (stride x y : Nat) : Nat → Nat :=
  fun i => if i = y * stride + x / 8 then 1 <<< (7 - x % 8) else 0

/-- Number of foreground pixels over the valid coordinates [0,N)×[0,N)
(`count_set_bits` of the spec's testable properties). -/
def count_set_bits (N stride : Nat) (buf : Nat → Nat) : Nat :=
  (Finset.range N ×ˢ Finset.range N).sum
    (fun p => if getPixel stride buf p.1 p.2 then 1 else 0)

/-- An LVGL `lv_area_t`: inclusive corner coordinates x1,y1 (top-left) and
x2,y2 (bottom-right).  All areas drawn by `draw_battery` have non-negative
coordinates, so Nat suffices. -/
structure Area where
  x1 : Nat
  y1 : Nat
  x2 : Nat
  y2 : Nat
deriving DecidableEq

/-- Membership of pixel (x,y) in an LVGL area: coordinates are inclusive. -/
def in_area (r : Area) (x y : Nat) : Bool :=
  decide (r.x1 ≤ x ∧ x ≤ r.x2 ∧ r.y1 ≤ y ∧ y ≤ r.y2)

/-- Width of an LVGL area: coordinates are inclusive, so
`lv_area_get_width = x2 - x1 + 1`. -/
def area_width (r : Area) : Nat :=
  r.x2 - r.x1 + 1

/-- Battery outer frame: `{0, 2, 29, 13}` drawn with the foreground color. -/
def battery_outer_rect : Area := ⟨0, 2, 29, 13⟩

/-- Battery inner background: `{1, 3, 27, 12}` drawn with the background
color. -/
def battery_inner_rect : Area := ⟨1, 3, 27, 12⟩

/-- Battery fill: `{2, 4, 2 + (state->battery + 2) / 4, 11}` drawn with the
foreground color. -/
def battery_fill_rect (battery : Nat) : Area :=
  ⟨2, 4, 2 + (battery + 2) / 4, 11⟩

/-- Battery terminal nub: `{30, 5, 32, 10}` drawn with the foreground
color. -/
def battery_nub_rect : Area := ⟨30, 5, 32, 10⟩

/-- Battery nub inner background: `{31, 6, 31, 9}` drawn with the background
color. -/
def battery_nub_inner_rect : Area := ⟨31, 6, 31, 9⟩

/-- The five `lv_draw_rect` calls of `draw_battery`, in program order, paired
with their color (true = LVGL_FOREGROUND / rect_white_dsc, false =
LVGL_BACKGROUND / rect_black_dsc).  The conditional charging branch draws the
external `bolt` image, whose pixel data is not among the sources; the claims
about `draw_battery` concern the non-charging rectangle layout. -/
def draw_battery_rects (battery : Nat) : List (Area × Bool) :=
  [(battery_outer_rect, true),
   (battery_inner_rect, false),
   (battery_fill_rect battery, true),
   (battery_nub_rect, true),
   (battery_nub_inner_rect, false)]

/-- Filling an area of a pixel canvas with a color. -/
def draw_rect (c : Nat → Nat → Bool) (r : Area) (color : Bool) : Nat → Nat → Bool :=
  fun x y => if in_area r x y then color else c x y

/-- Applying a sequence of rectangle fills in order. -/
def apply_rects (c : Nat → Nat → Bool) (ops : List (Area × Bool)) : Nat → Nat → Bool :=
  ops.foldl (fun c op => draw_rect c op.1 op.2) c

/-- The blank (all-background) canvas. -/
def blank_canvas : Nat → Nat → Bool := fun _ _ => false

lemma in_area_iff (r : Area) (x y : Nat) :
    in_area r x y = true ↔ (r.x1 ≤ x ∧ x ≤ r.x2 ∧ r.y1 ≤ y ∧ y ≤ r.y2) := by
  simp [in_area]

lemma single00_src : ∀ a, a < 8 → ∀ b, b < 8 →
    (getPixel 1 (single_pixel_cbuf 1 0 0) b (8 - 1 - a) = true ↔ (a = 7 ∧ b = 0)) := by
  decide

lemma single70_src : ∀ a, a < 8 → ∀ b, b < 8 →
    (getPixel 1 (single_pixel_cbuf 1 7 0) b (8 - 1 - a) = true ↔ (a = 7 ∧ b = 7)) := by
  decide

/-- C1: for every valid packed N×N source bitmap and source coordinate (x,y)
with x,y < N, pixel (x,y) is foreground in the source iff pixel (N-1-y, x)
is foreground in the rotated output; in particular, with N = 8 and stride 1,
a bitmap with only pixel (0,0) set rotates to one with only pixel (7,0) set,
and one with only pixel (7,0) set rotates to one with only pixel (7,7)
set. -/
theorem rotation_pixel_mapping (inverted : Bool) (N stride : Nat)
    (hs : (N + 7) / 8 ≤ stride) (cbuf : Nat → Nat) (x y : Nat) (hx : x < N) (hy : y < N) :
    (getPixel stride cbuf x y
       = getPixel stride (rotate_canvas inverted N stride cbuf) (N - 1 - y) x)
    ∧ (∀ a, a < 8 → ∀ b, b < 8 →
        (getPixel 1 (rotate_canvas inverted 8 1 (single_pixel_cbuf 1 0 0)) a b = true
          ↔ (a = 7 ∧ b = 0)))
    ∧ (∀ a, a < 8 → ∀ b, b < 8 →
        (getPixel 1 (rotate_canvas inverted 8 1 (single_pixel_cbuf 1 7 0)) a b = true
          ↔ (a = 7 ∧ b = 7))) := by
  have hs8 : N ≤ 8 * stride := by omega
  refine ⟨?_, ?_, ?_⟩
  · rw [rotate_canvas_getPixel inverted N stride hs8 cbuf (N - 1 - y) x (by omega) hx]
    have hyy : N - 1 - (N - 1 - y) = y := by omega
    rw [hyy]
  · intro a ha b hb
    rw [rotate_canvas_getPixel inverted 8 1 (by omega) _ a b ha hb]
    exact single00_src a ha b hb
  · intro a ha b hb
    rw [rotate_canvas_getPixel inverted 8 1 (by omega) _ a b ha hb]
    exact single70_src a ha b hb

theorem rotation_pixel_mapping_witness :
    getPixel 1 (single_pixel_cbuf 1 0 0) 0 0
      = getPixel 1 (rotate_canvas false 8 1 (single_pixel_cbuf 1 0 0)) 7 0 :=
  (rotation_pixel_mapping false 8 1 (by decide) (single_pixel_cbuf 1 0 0) 0 0
    (by decide) (by decide)).1

/-- C3: applying the rotation four times restores every valid pixel of the
original bitmap. -/
theorem rotate_four_times_id (inverted : Bool) (N stride : Nat)
    (hs : (N + 7) / 8 ≤ stride) (cbuf : Nat → Nat) (a b : Nat) (ha : a < N) (hb : b < N) :
    getPixel stride
      (rotate_canvas inverted N stride (rotate_canvas inverted N stride
        (rotate_canvas inverted N stride (rotate_canvas inverted N stride cbuf)))) a b
      = getPixel stride cbuf a b := by
  have hs8 : N ≤ 8 * stride := by omega
  rw [rotate_canvas_getPixel inverted N stride hs8 _ a b ha hb]
  rw [rotate_canvas_getPixel inverted N stride hs8 _ b (N - 1 - a) hb (by omega)]
  rw [rotate_canvas_getPixel inverted N stride hs8 _ (N - 1 - a) (N - 1 - b)
    (by omega) (by omega)]
  rw [rotate_canvas_getPixel inverted N stride hs8 _ (N - 1 - b) (N - 1 - (N - 1 - a))
    (by omega) (by omega)]
  have e1 : N - 1 - (N - 1 - a) = a := by omega
  have e2 : N - 1 - (N - 1 - b) = b := by omega
  rw [e1, e2]

theorem rotate_four_times_id_witness :
    getPixel 1
      (rotate_canvas false 8 1 (rotate_canvas false 8 1
        (rotate_canvas false 8 1 (rotate_canvas false 8 1 (single_pixel_cbuf 1 0 0))))) 0 0
      = getPixel 1 (single_pixel_cbuf 1 0 0) 0 0 :=
  rotate_four_times_id false 8 1 (by decide) (single_pixel_cbuf 1 0 0) 0 0
    (by decide) (by decide)

/-- C4: rotation preserves the number of foreground pixels over the valid
coordinates [0,N)×[0,N). -/
theorem rotate_preserves_count (inverted : Bool) (N stride : Nat)
    (hs : (N + 7) / 8 ≤ stride) (cbuf : Nat → Nat) :
    count_set_bits N stride (rotate_canvas inverted N stride cbuf)
      = count_set_bits N stride cbuf := by
  have hs8 : N ≤ 8 * stride := by omega
  unfold count_set_bits
  refine Finset.sum_nbij' (fun p => (p.2, N - 1 - p.1)) (fun q => (N - 1 - q.2, q.1))
    ?_ ?_ ?_ ?_ ?_
  · rintro ⟨a, b⟩ hab
    simp only [Finset.mem_product, Finset.mem_range] at hab ⊢
    omega
  · rintro ⟨x, y⟩ hxy
    simp only [Finset.mem_product, Finset.mem_range] at hxy ⊢
    omega
  · rintro ⟨a, b⟩ hab
    simp only [Finset.mem_product, Finset.mem_range] at hab
    have e1 : N - 1 - (N - 1 - a) = a := by omega
    simp [e1]
  · rintro ⟨x, y⟩ hxy
    simp only [Finset.mem_product, Finset.mem_range] at hxy
    have e1 : N - 1 - (N - 1 - y) = y := by omega
    simp [e1]
  · rintro ⟨a, b⟩ hab
    simp only [Finset.mem_product, Finset.mem_range] at hab
    rw [rotate_canvas_getPixel inverted N stride hs8 cbuf a b hab.1 hab.2]

theorem rotate_preserves_count_witness :
    count_set_bits 8 1 (rotate_canvas false 8 1 (single_pixel_cbuf 1 0 0))
      = count_set_bits 8 1 (single_pixel_cbuf 1 0 0) :=
  rotate_preserves_count false 8 1 (by decide) (single_pixel_cbuf 1 0 0)

/-- C5: after rotation every padding bit of the destination — the bit of row
y < N at row position c with N ≤ c < 8·stride, inside the first stride·N
bytes — is 0, whatever the source contains. -/
theorem rotate_padding_bits_zero (inverted : Bool) (N stride : Nat)
    (_hs : (N + 7) / 8 ≤ stride) (cbuf : Nat → Nat) (y c : Nat) (hy : y < N)
    (hcN : N ≤ c) (hc : c < 8 * stride) :
    getPixel stride (rotate_canvas inverted N stride cbuf) c y = false := by
  rw [getPixel_eq_testBit, rotate_canvas_testBit]
  have hi : src_byte_idx stride c y < stride * N := byte_idx_lt N stride y c hy hc
  have hle : decide (stride * N ≤ src_byte_idx stride c y) = false := by
    simp only [decide_eq_false_iff_not]
    omega
  rw [hle, Bool.false_and, Bool.false_or]
  rw [← Bool.not_eq_true]
  intro hany
  rw [double_any_iff] at hany
  obtain ⟨y', hy', x, hx, hhit⟩ := hany
  rw [hitB, decide_eq_true_iff] at hhit
  obtain ⟨hval, hbyte, hbit⟩ := hhit
  rw [src_byte_idx, dst_byte_idx] at hbyte
  have hinj : y = x ∧ c / 8 = (N - 1 - y') / 8 :=
    stride_decomp_inj stride y x (c / 8) ((N - 1 - y') / 8) (by omega) (by omega) hbyte
  have hcol : c = N - 1 - y' := by omega
  omega

theorem rotate_padding_bits_zero_witness :
    getPixel 1 (rotate_canvas false 4 1 (fun _ => 0xFF)) 5 0 = false :=
  rotate_padding_bits_zero false 4 1 (by decide) (fun _ => 0xFF) 0 5
    (by decide) (by decide) (by decide)

lemma src_tmp_getBitVal (N stride : Nat) (cbuf : Nat → Nat) (x y : Nat)
    (hlt : src_byte_idx stride x y < stride * N) :
    (getBitVal (src_tmp_of N stride cbuf) (src_byte_idx stride x y) (7 - x % 8) = 1)
      ↔ getPixel stride cbuf x y = true := by
  have e : src_tmp_of N stride cbuf (src_byte_idx stride x y)
      = cbuf (src_byte_idx stride x y) := by
    simp [src_tmp_of, hlt]
  rw [getBitVal_eq_one_iff, e, getPixel_eq_testBit]

lemma hitB_congr (N stride : Nat) (hs : N ≤ 8 * stride) (cbuf1 cbuf2 : Nat → Nat)
    (hagree : ∀ x, x < N → ∀ y, y < N →
      getPixel stride cbuf1 x y = getPixel stride cbuf2 x y)
    (y x i j : Nat) (hy : y < N) (hx : x < N) :
    hitB N stride (src_tmp_of N stride cbuf1) y x i j
      = hitB N stride (src_tmp_of N stride cbuf2) y x i j := by
  unfold hitB
  apply decide_eq_decide.mpr
  have hlt : src_byte_idx stride x y < stride * N := by
    rw [src_byte_idx]
    exact byte_idx_lt N stride y x hy (by omega)
  rw [and_congr_left_iff]
  intro _
  rw [src_tmp_getBitVal N stride cbuf1 x y hlt, src_tmp_getBitVal N stride cbuf2 x y hlt,
    hagree x hx y hy]

/-- C6: the rotation never reads padding bits — two sources that agree on all
valid pixels (x,y), x,y < N, rotate to identical destination buffers (on the
stride·N bytes the routine writes). -/
theorem rotate_ignores_padding_bits (inverted : Bool) (N stride : Nat)
    (hs : (N + 7) / 8 ≤ stride) (cbuf1 cbuf2 : Nat → Nat)
    (hagree : ∀ x, x < N → ∀ y, y < N →
      getPixel stride cbuf1 x y = getPixel stride cbuf2 x y)
    (i : Nat) (hi : i < stride * N) :
    rotate_canvas inverted N stride cbuf1 i = rotate_canvas inverted N stride cbuf2 i := by
  apply Nat.eq_of_testBit_eq
  intro j
  rw [rotate_canvas_testBit, rotate_canvas_testBit]
  have hle : decide (stride * N ≤ i) = false := by
    simp only [decide_eq_false_iff_not]
    omega
  rw [hle, Bool.false_and, Bool.false_or, Bool.false_and, Bool.false_or]
  rw [Bool.eq_iff_iff, double_any_iff, double_any_iff]
  constructor
  · rintro ⟨y', hy', x, hx, h⟩
    refine ⟨y', hy', x, hx, ?_⟩
    rw [← hitB_congr N stride (by omega) cbuf1 cbuf2 hagree y' x i j hy' hx]
    exact h
  · rintro ⟨y', hy', x, hx, h⟩
    refine ⟨y', hy', x, hx, ?_⟩
    rw [hitB_congr N stride (by omega) cbuf1 cbuf2 hagree y' x i j hy' hx]
    exact h

def padding_garbage_cbuf : Nat → Nat := fun i => if i < 4 then 15 else 0

theorem rotate_ignores_padding_bits_witness :
    rotate_canvas false 4 1 (fun _ => 0) 2 = rotate_canvas false 4 1 padding_garbage_cbuf 2 :=
  rotate_ignores_padding_bits false 4 1 (by decide) (fun _ => 0) padding_garbage_cbuf
    (by decide) 2 (by decide)

/-- C7: with stride at least ceil(N/8) and N = CANVAS_SIZE, every byte index
the rotation computes — `y*stride + x/8` on the source copy and
`new_y*stride + new_x/8` on the destination, for x,y < N — lies strictly
below stride·N, so no access is out of bounds. -/
theorem rotate_indices_in_bounds (stride : Nat) (hs : (CANVAS_SIZE + 7) / 8 ≤ stride)
    (x y : Nat) (hx : x < CANVAS_SIZE) (hy : y < CANVAS_SIZE) :
    src_byte_idx stride x y < stride * CANVAS_SIZE ∧
    dst_byte_idx CANVAS_SIZE stride x y < stride * CANVAS_SIZE := by
  have hs8 : CANVAS_SIZE ≤ 8 * stride := by
    have : CANVAS_SIZE = 68 := rfl
    omega
  constructor
  · rw [src_byte_idx]
    exact byte_idx_lt CANVAS_SIZE stride y x hy (by omega)
  · rw [dst_byte_idx]
    exact byte_idx_lt CANVAS_SIZE stride x (CANVAS_SIZE - 1 - y) hx (by omega)

theorem rotate_indices_in_bounds_witness :
    src_byte_idx 9 67 67 < 9 * CANVAS_SIZE ∧
    dst_byte_idx CANVAS_SIZE 9 67 67 < 9 * CANVAS_SIZE :=
  rotate_indices_in_bounds 9 (by decide) 67 67 (by decide) (by decide)

/-- C9: the conditional memset to 0x00/0xFF controlled by
CONFIG_NICE_VIEW_WIDGET_INVERTED is immediately overwritten by the
unconditional memset to 0, so the rotated output does not depend on the
flag. -/
theorem rotate_inverted_irrelevant (N stride : Nat) (cbuf : Nat → Nat) :
    rotate_canvas true N stride cbuf = rotate_canvas false N stride cbuf := by
  funext i
  apply Nat.eq_of_testBit_eq
  intro j
  rw [rotate_canvas_testBit, rotate_canvas_testBit]

/-- C8: `draw_battery` on a blank canvas draws, as its first operation, the
foreground border rectangle with corners (0,2)-(29,13); and after all five
rectangle fills every border pixel — inside the outer rectangle but outside
the inner background rectangle — is still foreground. -/
theorem draw_battery_border_foreground (battery x y : Nat)
    (hin : in_area battery_outer_rect x y = true)
    (hout : in_area battery_inner_rect x y = false) :
    (draw_battery_rects battery).head? = some (battery_outer_rect, true)
    ∧ apply_rects blank_canvas (draw_battery_rects battery) x y = true := by
  refine ⟨rfl, ?_⟩
  simp only [in_area, battery_outer_rect, decide_eq_true_eq] at hin
  simp only [in_area, battery_inner_rect, decide_eq_false_iff_not] at hout
  simp only [apply_rects, draw_battery_rects, List.foldl_cons, List.foldl_nil, draw_rect,
    blank_canvas, in_area, battery_outer_rect, battery_inner_rect, battery_fill_rect,
    battery_nub_rect, battery_nub_inner_rect, decide_eq_true_eq]
  split_ifs <;> first | rfl | omega

theorem draw_battery_border_foreground_witness :
    (draw_battery_rects 50).head? = some (battery_outer_rect, true)
    ∧ apply_rects blank_canvas (draw_battery_rects 50) 0 2 = true :=
  draw_battery_border_foreground 50 0 2 (by decide) (by decide)

/-- C10: for every battery level ≤ 100, the fill rectangle (third rectangle
of `draw_battery`) stays inside the inner background rectangle (1,3)-(27,12):
its right edge `2 + (battery + 2) / 4` is at most 27 and each of its pixels
lies in the inner rectangle, so the fill never overwrites the frame. -/
theorem battery_fill_inside_inner (battery : Nat) (hb : battery ≤ 100) :
    (draw_battery_rects battery)[2]? = some (battery_fill_rect battery, true)
    ∧ (battery_fill_rect battery).x2 ≤ 27
    ∧ ∀ x y, in_area (battery_fill_rect battery) x y = true →
        in_area battery_inner_rect x y = true := by
  refine ⟨rfl, ?_, ?_⟩
  · show 2 + (battery + 2) / 4 ≤ 27
    omega
  · intro x y h
    simp only [in_area, battery_fill_rect, battery_inner_rect, decide_eq_true_eq] at h ⊢
    omega

theorem battery_fill_inside_inner_witness :
    (battery_fill_rect 100).x2 ≤ 27 ∧ in_area battery_inner_rect 27 11 = true :=
  ⟨(battery_fill_inside_inner 100 (by decide)).2.1,
   (battery_fill_inside_inner 100 (by decide)).2.2 27 11 (by decide)⟩

/-- C2 (amended): for every battery_percent ≤ 100, the fill rectangle drawn
by `draw_battery` has right-edge x-coordinate `2 + (battery_percent + 2) / 4`
(integer division); since LVGL area coordinates are inclusive, its width is
`(battery_percent + 2) / 4 + 1`, not `2 + (battery_percent + 2) / 4`. -/
theorem battery_fill_right_edge (battery : Nat) (hb : battery ≤ 100) :
    (draw_battery_rects battery)[2]? = some (battery_fill_rect battery, true)
    ∧ (battery_fill_rect battery).x2 = 2 + (battery + 2) / 4
    ∧ area_width (battery_fill_rect battery) = (battery + 2) / 4 + 1 := by
  refine ⟨rfl, rfl, ?_⟩
  show 2 + (battery + 2) / 4 - 2 + 1 = (battery + 2) / 4 + 1
  omega

theorem battery_fill_right_edge_witness :
    (draw_battery_rects 50)[2]? = some (battery_fill_rect 50, true)
    ∧ (battery_fill_rect 50).x2 = 2 + (50 + 2) / 4
    ∧ area_width (battery_fill_rect 50) = (50 + 2) / 4 + 1 :=
  battery_fill_right_edge 50 (by decide)

/-- C2 counterexample: at battery_percent = 0 the fill rectangle is
`{2, 4, 2, 11}`, whose (inclusive) width is 1, not `2 + (0 + 2) / 4 = 2`:
the expression `2 + (battery + 2) / 4` is the rectangle's right-edge
x-coordinate, not its width. -/
theorem battery_fill_width_claim_false :
    ¬ area_width (battery_fill_rect 0) = 2 + (0 + 2) / 4 := by
  decide

end NiceView
